import Mathlib

/-!
Verification development for the hash-chained audit ledger of this
repository (`blockchain_service.py`, the audit hook in `app.py`).
The Python source is shallowly embedded: statements and blocks are
records, the database is a `LedgerState` value, and each service
function becomes a pure Lean function on that state.
-/

namespace AuditLedger

/-- JSON-compatible payload documents (the `payload` column), as produced by
the application's call sites: null, booleans, integers, strings, arrays and
string-keyed objects. -/
inductive Json where
  | null : Json
  | bool (b : Bool) : Json
  | num (n : Int) : Json
  | str (s : String) : Json
  | arr (items : List Json) : Json
  | obj (fields : List (String × Json)) : Json

/-- Lowercase hexadecimal digit for `n < 16`. -/
def hexDigit (n : Nat) : Char :=
  if n < 10 then Char.ofNat (48 + n) else Char.ofNat (87 + n)

/-- `\uXXXX` escape (lowercase hex) for a code unit `n < 0x10000`,
as emitted by `json.dumps` with `ensure_ascii=True`. -/
def uEscape (n : Nat) : String :=
  String.mk ['\\', 'u', hexDigit (n / 4096 % 16), hexDigit (n / 256 % 16),
             hexDigit (n / 16 % 16), hexDigit (n % 16)]

/-- Escape one character the way `json.dumps` (default `ensure_ascii=True`)
does inside a string literal. -/
def escapeChar (c : Char) : String :=
  if c = '"' then "\\\""
  else if c = '\\' then "\\\\"
  else if c = '\n' then "\\n"
  else if c = '\t' then "\\t"
  else if c = '\r' then "\\r"
  else if c.toNat = 8 then "\\b"
  else if c.toNat = 12 then "\\f"
  else if 32 ≤ c.toNat ∧ c.toNat ≤ 126 then String.singleton c
  else if c.toNat < 65536 then uEscape c.toNat
  else
    uEscape (55296 + (c.toNat - 65536) / 1024) ++ uEscape (56320 + (c.toNat - 65536) % 1024)

/-- A JSON string literal: quotes around the escaped characters. -/
def escapeString (s : String) : String :=
  "\"" ++ String.join (s.toList.map escapeChar) ++ "\""

/-- Lexicographic comparison of character sequences by code point
(Python's `str` ordering, which `sort_keys=True` uses). -/
def charListLe : List Char → List Char → Bool
  | [], _ => true
  | _ :: _, [] => false
  | a :: as, b :: bs =>
      if a.toNat < b.toNat then true
      else if b.toNat < a.toNat then false
      else charListLe as bs

/-- String comparison by code points. -/
def strLe (a b : String) : Bool := charListLe a.toList b.toList

/-- Insert a (key, rendered value) pair into a list sorted by key
(code-point order, as Python's `sort_keys=True` sorts `str` keys). -/
def insertPair (p : String × String) : List (String × String) → List (String × String)
  | [] => [p]
  | q :: rest => if strLe p.1 q.1 then p :: q :: rest else q :: insertPair p rest

/-- Sort (key, rendered value) pairs by key. -/
def sortPairs (l : List (String × String)) : List (String × String) :=
  l.foldr insertPair []

/-- Comma-separated `"key":value` items of an object. -/
def joinFields : List (String × String) → String
  | [] => ""
  | [p] => escapeString p.1 ++ ":" ++ p.2
  | p :: q :: rest => escapeString p.1 ++ ":" ++ p.2 ++ "," ++ joinFields (q :: rest)

/-- Comma-separated concatenation of already-rendered items. -/
def joinComma : List String → String
  | [] => ""
  | [x] => x
  | x :: y :: rest => x ++ "," ++ joinComma (y :: rest)

mutual

/-- Canonical serialization: `json.dumps(v, sort_keys=True, separators=(",", ":"))`
(`blockchain_service.py` line 32). Object keys are sorted; no whitespace. -/
def dumps : Json → String
  | .null => "null"
  | .bool true => "true"
  | .bool false => "false"
  | .num n => toString n
  | .str s => escapeString s
  | .arr items => "[" ++ joinComma (dumpsItems items) ++ "]"
  | .obj fields => "\x7b" ++ joinFields (sortPairs (renderFields fields)) ++ "\x7d"
termination_by structural j => j

/-- Rendered array elements, in order. -/
def dumpsItems : List Json → List String
  | [] => []
  | x :: xs => dumps x :: dumpsItems xs
termination_by structural l => l

/-- Render each field's value, keeping the raw key for sorting. -/
def renderFields : List (String × Json) → List (String × String)
  | [] => []
  | (k, v) :: rest => (k, dumps v) :: renderFields rest
termination_by structural l => l

end

/-- UTF-8 bytes of one character. -/
def utf8Char (c : Char) : List Nat :=
  let n := c.toNat
  if n < 128 then [n]
  else if n < 2048 then [192 + n / 64, 128 + n % 64]
  else if n < 65536 then [224 + n / 4096, 128 + n / 64 % 64, 128 + n % 64]
  else [240 + n / 262144, 128 + n / 4096 % 64, 128 + n / 64 % 64, 128 + n % 64]

/-- UTF-8 encoding of a string (`.encode("utf-8")`). -/
def utf8Encode (s : String) : List Nat :=
  (s.toList.map utf8Char).flatten

/-- Truncate to 32 bits. -/
def w32 (x : Nat) : Nat := x % 4294967296

/-- Right rotation of a 32-bit word. -/
def rotr (x k : Nat) : Nat := w32 ((x >>> k) ||| (x <<< (32 - k)))

/-- Bitwise complement within 32 bits. -/
def not32 (x : Nat) : Nat := x ^^^ 4294967295

/-- SHA-256 round constants. -/
def sha256K : List Nat :=
  [1116352408, 1899447441, 3049323471, 3921009573, 961987163, 1508970993,
   2453635748, 2870763221, 3624381080, 310598401, 607225278, 1426881987,
   1925078388, 2162078206, 2614888103, 3248222580, 3835390401, 4022224774,
   264347078, 604807628, 770255983, 1249150122, 1555081692, 1996064986,
   2554220882, 2821834349, 2952996808, 3210313671, 3336571891, 3584528711,
   113926993, 338241895, 666307205, 773529912, 1294757372, 1396182291,
   1695183700, 1986661051, 2177026350, 2456956037, 2730485921, 2820302411,
   3259730800, 3345764771, 3516065817, 3600352804, 4094571909, 275423344,
   430227734, 506948616, 659060556, 883997877, 958139571, 1322822218,
   1537002063, 1747873779, 1955562222, 2024104815, 2227730452, 2361852424,
   2428436474, 2756734187, 3204031479, 3329325298]

/-- SHA-256 initial hash state. -/
def sha256H0 : List Nat :=
  [1779033703, 3144134277, 1013904242, 2773480762, 1359893119, 2600822924,
   528734635, 1541459225]

/-- Extend the 16-word message schedule by `steps` further words. -/
def buildW : List Nat → Nat → List Nat
  | acc, 0 => acc
  | acc, n + 1 =>
      let i := acc.length
      let a := acc.getD (i - 15) 0
      let b := acc.getD (i - 2) 0
      let s0 := (rotr a 7) ^^^ (rotr a 18) ^^^ (a >>> 3)
      let s1 := (rotr b 17) ^^^ (rotr b 19) ^^^ (b >>> 10)
      buildW (acc ++ [w32 (acc.getD (i - 16) 0 + s0 + acc.getD (i - 7) 0 + s1)]) n

/-- The 64 SHA-256 compression rounds; the state is `[a,b,c,d,e,f,g,h]`. -/
def sha256rounds : List (Nat × Nat) → List Nat → List Nat
  | [], s => s
  | (k, wi) :: rest, [a, b, c, d, e, f, g, h] =>
      let s1 := (rotr e 6) ^^^ (rotr e 11) ^^^ (rotr e 25)
      let ch := (e &&& f) ^^^ (not32 e &&& g)
      let t1 := w32 (h + s1 + ch + k + wi)
      let s0 := (rotr a 2) ^^^ (rotr a 13) ^^^ (rotr a 22)
      let mj := (a &&& b) ^^^ (a &&& c) ^^^ (b &&& c)
      let t2 := w32 (s0 + mj)
      sha256rounds rest [w32 (t1 + t2), a, b, c, w32 (d + t1), e, f, g]
  | _, s => s

/-- One chunk of compression applied to the running hash state. -/
def processChunk (hs : List Nat) (chunk : List Nat) : List Nat :=
  let w := buildW chunk 48
  let s := sha256rounds (sha256K.zip w) hs
  (hs.zip s).map (fun p => w32 (p.1 + p.2))

/-- Big-endian bytes of `n`, `k` bytes wide. -/
def beBytes (n k : Nat) : List Nat :=
  (List.range k).map (fun i => (n >>> (8 * (k - 1 - i))) % 256)

/-- Group bytes into big-endian 32-bit words. -/
def toWords : List Nat → List Nat
  | b0 :: b1 :: b2 :: b3 :: rest => (b0 * 16777216 + b1 * 65536 + b2 * 256 + b3) :: toWords rest
  | _ => []

/-- Group words into 16-word blocks. -/
def toBlocks : List Nat → List (List Nat)
  | w0 :: w1 :: w2 :: w3 :: w4 :: w5 :: w6 :: w7 ::
    w8 :: w9 :: w10 :: w11 :: w12 :: w13 :: w14 :: w15 :: rest =>
      [w0, w1, w2, w3, w4, w5, w6, w7, w8, w9, w10, w11, w12, w13, w14, w15] :: toBlocks rest
  | _ => []

/-- SHA-256 of a byte sequence, as eight 32-bit words. -/
def sha256bytes (msg : List Nat) : List Nat :=
  let padded := msg ++ [128] ++ List.replicate ((119 - msg.length % 64) % 64) 0
                    ++ beBytes (8 * msg.length) 8
  (toBlocks (toWords padded)).foldl processChunk sha256H0

/-- Eight lowercase hex digits of a 32-bit word. -/
def toHex8 (n : Nat) : String :=
  String.mk ((List.range 8).map (fun i => hexDigit ((n >>> (4 * (7 - i))) % 16)))

/-- `hashlib.sha256(blob).hexdigest()`: lowercase hex SHA-256 of the UTF-8
bytes of a string. -/
def sha256Hex (s : String) : String :=
  String.join ((sha256bytes (utf8Encode s)).map toHex8)

/-- A row of the `statements` table (`models.Statement`). `created_at` is the
stored UTC timestamp, kept as its ISO-8601 rendering (the only form the
hashing code ever reads, via `.isoformat()`). -/
structure Statement where
  id : Nat
  kind : String
  user_id : Option Nat
  payload : Json
  created_at : String
  block_id : Option Nat

/-- A row of the `blocks` table (`models.Block`): primary key `id`
(referenced by `statements.block_id`), chain position `index`, link
`prev_hash`, content digest `hash`, and sealing timestamp. -/
structure Block where
  id : Nat
  index : Nat
  prev_hash : Option String
  hash : String
  created_at : String
deriving DecidableEq

/-- The durable store: both tables in row-insertion order plus the next
auto-increment key of each. -/
structure LedgerState where
  statements : List Statement
  blocks : List Block
  nextStatementId : Nat
  nextBlockId : Nat

/-- Empty database; SQLite auto-increment keys start at 1. -/
def initialState : LedgerState :=
  { statements := [], blocks := [], nextStatementId := 1, nextBlockId := 1 }

/-- Python's `prev_hash or ""` (line 19): `None` and the empty string both
collapse to `""`; any other string is kept. -/
def prevHashOrEmpty : Option String → String
  | none => ""
  | some s => if s = "" then "" else s

/-- The per-statement dict of the hashed payload (lines 22–28): the
statement's `(id, kind, user_id, created_at, payload)` fields. -/
def statementJson (s : Statement) : Json :=
  .obj [("id", .num s.id), ("kind", .str s.kind),
        ("user_id", (s.user_id.map (fun u => Json.num u)).getD .null),
        ("created_at", .str s.created_at), ("payload", s.payload)]

/-- The canonical dict hashed by `_calc_block_hash` (lines 17–31). -/
def blockPayloadJson (index : Nat) (prev_hash : Option String)
    (statements : List Statement) (created_at : String) : Json :=
  .obj [("index", .num index), ("prev_hash", .str (prevHashOrEmpty prev_hash)),
        ("created_at", .str created_at),
        ("statements", .arr (statements.map statementJson))]

/-- `_calc_block_hash` (lines 16–33): SHA-256 hex digest of the canonical
JSON serialization of the block payload. -/
def calcBlockHash (index : Nat) (prev_hash : Option String)
    (statements : List Statement) (created_at : String) : String :=
  sha256Hex (dumps (blockPayloadJson index prev_hash statements created_at))

/-- Keep whichever of the accumulator and the next row has the greater
`index`. -/
def lastBlockStep (acc : Option Block) (b : Block) : Option Block :=
  match acc with
  | none => some b
  | some m => if m.index < b.index then some b else some m

/-- The row returned by `query(Block).order_by(Block.index.desc()).limit(1)`:
the stored block with the greatest `index`, if any. -/
def lastBlock (bs : List Block) : Option Block :=
  bs.foldl lastBlockStep none

/-- `_get_next_index_and_prev_hash` (lines 36–42). -/
def getNextIndexAndPrevHash (st : LedgerState) : Nat × Option String :=
  match lastBlock st.blocks with
  | none => (0, none)
  | some last => (last.index + 1, some last.hash)

/-- `append_statement` (lines 45–52): insert a fresh statement with the next
auto-increment id, the caller's fields, and `block_id = NULL`; returns the
new row and the committed state. -/
def appendStatement (st : LedgerState) (kind : String) (payload : Json)
    (user_id : Option Nat) (now : String) : Statement × LedgerState :=
  let s : Statement :=
    { id := st.nextStatementId, kind := kind, user_id := user_id,
      payload := payload, created_at := now, block_id := none }
  (s, { st with statements := st.statements ++ [s],
                nextStatementId := st.nextStatementId + 1 })

/-- A `record` attempt against possibly-unavailable storage: when the commit
raises, the transaction rolls back and the store is unchanged (no row, no id
consumed); otherwise it is exactly `appendStatement`. -/
def recordAttempt (storageUp : Bool) (st : LedgerState) (kind : String)
    (payload : Json) (user_id : Option Nat) (now : String) :
    Option Statement × LedgerState :=
  if storageUp then
    let r := appendStatement st kind payload user_id now
    (some r.1, r.2)
  else (none, st)

/-- Ascending insertion by `id`. -/
def insertByIdAsc (s : Statement) : List Statement → List Statement
  | [] => [s]
  | t :: rest => if s.id ≤ t.id then s :: t :: rest else t :: insertByIdAsc s rest

/-- `ORDER BY id ASC` over a row set. -/
def sortByIdAsc (l : List Statement) : List Statement :=
  l.foldr insertByIdAsc []

/-- Line 59: `size = limit or int(config.get("BLOCK_SIZE", 10))` — Python's
`or` falls back to the configured size when `limit` is `None` or `0`. -/
def resolveSize (cfgBlockSize : Nat) (limit : Option Nat) : Nat :=
  match limit with
  | none => cfgBlockSize
  | some 0 => cfgBlockSize
  | some (n + 1) => n + 1

/-- The query of lines 62–64: statements with `block_id IS NULL`, ordered by
`id` ascending, limited to `size` rows. -/
def oldestUnsealed (st : LedgerState) (size : Nat) : List Statement :=
  (sortByIdAsc (st.statements.filter (fun s => s.block_id = none))).take size

/-- `COUNT(*)` of statements with `block_id IS NULL`. -/
def countUnsealed (st : LedgerState) : Nat :=
  (st.statements.filter (fun s => s.block_id = none)).length

/-- Lines 76–77: set `block_id` on every row whose `id` is among `ids`. -/
def markSealed (ids : List Nat) (bid : Nat) (rows : List Statement) :
    List Statement :=
  rows.map (fun s => if s.id ∈ ids then { s with block_id := some bid } else s)

/-- The `Block` row built at lines 68–72: next chain position, previous
hash, and the digest of the selected batch. -/
def sealedBlock (st : LedgerState) (size : Nat) (now : String) : Block :=
  { id := st.nextBlockId,
    index := (getNextIndexAndPrevHash st).1,
    prev_hash := (getNextIndexAndPrevHash st).2,
    hash := calcBlockHash (getNextIndexAndPrevHash st).1
      (getNextIndexAndPrevHash st).2 (oldestUnsealed st size) now,
    created_at := now }

/-- The committed state after lines 73–78: the block row inserted and the
selected statements marked with its id. -/
def sealedState (st : LedgerState) (size : Nat) (now : String) : LedgerState :=
  { statements := markSealed ((oldestUnsealed st size).map (fun s => s.id))
      (sealedBlock st size now).id st.statements,
    blocks := st.blocks ++ [sealedBlock st size now],
    nextStatementId := st.nextStatementId,
    nextBlockId := st.nextBlockId + 1 }

/-- `maybe_seal_block` (lines 55–79): seal a block from the `size` oldest
unsealed statements when at least `size` exist; otherwise a no-op returning
`None`. -/
def maybeSealBlock (cfgBlockSize : Nat) (limit : Option Nat) (now : String)
    (st : LedgerState) : Option Block × LedgerState :=
  let size := resolveSize cfgBlockSize limit
  if (oldestUnsealed st size).length < size then (none, st)
  else (some (sealedBlock st size now), sealedState st size now)

/-- One committed interaction with the ledger: a successful `record`, a
failed `record` (storage down, rolled back), or a `maybe_seal_block` call. -/
inductive Step : LedgerState → LedgerState → Prop where
  | record (st : LedgerState) (kind : String) (payload : Json)
      (user_id : Option Nat) (now : String) :
      Step st (appendStatement st kind payload user_id now).2
  | recordFail (st : LedgerState) (kind : String) (payload : Json)
      (user_id : Option Nat) (now : String) :
      Step st (recordAttempt false st kind payload user_id now).2
  | sealCall (st : LedgerState) (cfgBlockSize : Nat) (limit : Option Nat)
      (now : String) :
      Step st (maybeSealBlock cfgBlockSize limit now st).2

/-- Any number of committed interactions. -/
def Steps : LedgerState → LedgerState → Prop :=
  Relation.ReflTransGen Step

/-- States the running application can produce from an empty database. -/
def Reachable (st : LedgerState) : Prop :=
  Steps initialState st

/-- `block_id` is either NULL or a key already handed out. -/
def bidOk (o : Option Nat) (n : Nat) : Bool :=
  match o with
  | none => true
  | some b => decide (b < n)

/-- The state invariant maintained by the ledger operations: statement rows
in strictly increasing `id` order below the auto-increment key; block
`index`es exactly `0, …, N-1` in insertion order; `prev_hash` linkage with a
NULL genesis link; block keys below the auto-increment key; statement
`block_id`s only reference handed-out keys; and every block's stored `hash`
recomputable from its own stored rows. -/
def Inv (st : LedgerState) : Prop :=
  List.Pairwise (fun a b => a.id < b.id) st.statements ∧
  (∀ s ∈ st.statements, s.id < st.nextStatementId) ∧
  st.blocks.map (fun b => b.index) = List.range st.blocks.length ∧
  List.Chain' (fun a b => b.prev_hash = some a.hash) st.blocks ∧
  (∀ b ∈ st.blocks.take 1, b.prev_hash = none) ∧
  (∀ b ∈ st.blocks, b.id < st.nextBlockId) ∧
  (∀ s ∈ st.statements, bidOk s.block_id st.nextBlockId = true) ∧
  (∀ b ∈ st.blocks,
     b.hash = calcBlockHash b.index b.prev_hash
       (st.statements.filter (fun s => s.block_id = some b.id)) b.created_at)

/-- The statements sealed into the block keyed `bid`, ascending by `id`. -/
def blockStmts (st : LedgerState) (bid : Nat) : List Statement :=
  sortByIdAsc (st.statements.filter (fun s => s.block_id = some bid))

/-- Ascending insertion by `index`. -/
def insertByIndexAsc (b : Block) : List Block → List Block
  | [] => [b]
  | c :: rest => if b.index ≤ c.index then b :: c :: rest else c :: insertByIndexAsc b rest

/-- `ORDER BY index ASC` over the block table. -/
def sortByIndexAsc (l : List Block) : List Block :=
  l.foldr insertByIndexAsc []

/-- Modelled from the spec: the walk inside `verify_chain` (§4.3), which has
no implementation under `src/`. Scans the blocks in `index` order, carrying
the expected `prev_hash` (NULL before the genesis block); at each block it
recomputes the hash from the block's stored statements and compares it and
the linkage, answering the first failing `index`, or `none` when the whole
chain is consistent. -/
def verifyFrom (st : LedgerState) : Option String → List Block → Option Nat
  | _, [] => none
  | prev, b :: rest =>
      if b.prev_hash = prev ∧
         b.hash = calcBlockHash b.index b.prev_hash (blockStmts st b.id) b.created_at
      then verifyFrom st (some b.hash) rest
      else some b.index

/-- Modelled from the spec: `verify_chain()` (§4.3), absent from `src/`.
Read-only: it is a function of the stored state and returns only the
verdict — `none` for success, `some i` for the first failing index. -/
def verifyChain (st : LedgerState) : Option Nat :=
  verifyFrom st none (sortByIndexAsc st.blocks)

/-- Outcome of the `log_http_request` before-request hook (`app.py`
lines 42–69): the committed state, the diagnostic traces the handler
emitted, and whether the surrounding HTTP request goes on to its handler. -/
structure HookResult where
  state : LedgerState
  diagnostics : List String
  proceeds : Bool

/-- Where the audited ledger call raised, if it did: inside
`append_statement` (nothing committed) or inside `maybe_seal_block` (the
statement already committed). -/
inductive AuditFailure where
  | inRecord : AuditFailure
  | inSeal : AuditFailure

/-- `log_http_request` (`app.py` lines 42–69): skipped endpoints return
immediately; otherwise the statement is appended and a seal attempted inside
`try:`, and any exception is caught by `except Exception: pass` — the hook
emits no diagnostic and the request proceeds regardless. -/
def logHttpRequest (skipped : Bool) (failure : Option AuditFailure)
    (cfgBlockSize : Nat) (payload : Json) (user_id : Option Nat)
    (now : String) (st : LedgerState) : HookResult :=
  if skipped then { state := st, diagnostics := [], proceeds := true }
  else
    match failure with
    | some .inRecord => { state := st, diagnostics := [], proceeds := true }
    | some .inSeal =>
        { state := (appendStatement st "http_request" payload user_id now).2,
          diagnostics := [], proceeds := true }
    | none =>
        { state := (maybeSealBlock cfgBlockSize none now
            (appendStatement st "http_request" payload user_id now).2).2,
          diagnostics := [], proceeds := true }

/-! ### Helper lemmas: the insertion sorts -/

theorem insertByIdAsc_cons_of_le (s t : Statement) (rest : List Statement)
    (h : s.id ≤ t.id) : insertByIdAsc s (t :: rest) = s :: t :: rest := by
  simp [insertByIdAsc, h]

theorem sortByIdAsc_eq_self (l : List Statement)
    (h : List.Pairwise (fun a b => a.id < b.id) l) : sortByIdAsc l = l := by
  induction l with
  | nil => rfl
  | cons s xs ih =>
    rcases List.pairwise_cons.mp h with ⟨hhead, htail⟩
    show insertByIdAsc s (sortByIdAsc xs) = s :: xs
    rw [ih htail]
    cases xs with
    | nil => rfl
    | cons t rest =>
      exact insertByIdAsc_cons_of_le s t rest
        (Nat.le_of_lt (hhead t (List.mem_cons_self t rest)))

theorem mem_insertByIdAsc {a s : Statement} {l : List Statement} :
    a ∈ insertByIdAsc s l ↔ a = s ∨ a ∈ l := by
  induction l with
  | nil => simp [insertByIdAsc]
  | cons t rest ih =>
    by_cases h : s.id ≤ t.id
    · simp only [insertByIdAsc, if_pos h, List.mem_cons]
    · simp only [insertByIdAsc, if_neg h, List.mem_cons, ih]
      tauto

theorem mem_sortByIdAsc {a : Statement} {l : List Statement} :
    a ∈ sortByIdAsc l ↔ a ∈ l := by
  induction l with
  | nil => exact Iff.rfl
  | cons s xs ih =>
    show a ∈ insertByIdAsc s (sortByIdAsc xs) ↔ _
    rw [mem_insertByIdAsc, ih, List.mem_cons]

theorem length_insertByIdAsc (s : Statement) (l : List Statement) :
    (insertByIdAsc s l).length = l.length + 1 := by
  induction l with
  | nil => rfl
  | cons t rest ih =>
    by_cases h : s.id ≤ t.id <;> simp [insertByIdAsc, h, ih]

theorem length_sortByIdAsc (l : List Statement) :
    (sortByIdAsc l).length = l.length := by
  induction l with
  | nil => rfl
  | cons s xs ih =>
    show (insertByIdAsc s (sortByIdAsc xs)).length = _
    rw [length_insertByIdAsc, ih, List.length_cons]

theorem ids_nodup {l : List Statement}
    (h : List.Pairwise (fun a b => a.id < b.id) l) :
    (l.map (fun s => s.id)).Nodup := by
  show List.Pairwise _ _
  exact List.pairwise_map.mpr (h.imp fun hlt => Nat.ne_of_lt hlt)

theorem stmt_id_inj {l : List Statement}
    (h : List.Pairwise (fun a b => a.id < b.id) l) {s t : Statement}
    (hs : s ∈ l) (ht : t ∈ l) (hid : s.id = t.id) : s = t :=
  List.inj_on_of_nodup_map (ids_nodup h) hs ht hid

theorem oldestUnsealed_eq_take (st : LedgerState) (size : Nat)
    (h : List.Pairwise (fun a b => a.id < b.id) st.statements) :
    oldestUnsealed st size
      = (st.statements.filter (fun s => s.block_id = none)).take size := by
  unfold oldestUnsealed
  rw [sortByIdAsc_eq_self _ (h.sublist (List.filter_sublist st.statements))]

theorem mem_oldestUnsealed_block_id {st : LedgerState} {size : Nat}
    {s : Statement} (h : s ∈ oldestUnsealed st size) : s.block_id = none := by
  have h1 : s ∈ sortByIdAsc (st.statements.filter fun s => s.block_id = none) :=
    (List.take_sublist _ _).mem h
  have h2 := mem_sortByIdAsc.mp h1
  exact of_decide_eq_true (List.mem_filter.mp h2).2

theorem mem_oldestUnsealed_mem {st : LedgerState} {size : Nat}
    {s : Statement} (h : s ∈ oldestUnsealed st size) : s ∈ st.statements := by
  have h1 : s ∈ sortByIdAsc (st.statements.filter fun s => s.block_id = none) :=
    (List.take_sublist _ _).mem h
  exact (List.filter_sublist st.statements).mem (mem_sortByIdAsc.mp h1)

/-! ### Helper lemmas: `lastBlock` on a well-formed chain -/

theorem lastBlock_aux (bs : List Block) (m : Block)
    (h : ∀ b ∈ bs, m.index < b.index)
    (hp : List.Pairwise (fun a b => a.index < b.index) bs) :
    List.foldl lastBlockStep (some m) bs = some (bs.getLastD m) := by
  induction bs generalizing m with
  | nil => rfl
  | cons b rest ih =>
    rw [List.foldl_cons]
    have hmb : m.index < b.index := h b (List.mem_cons_self b rest)
    have hstep : lastBlockStep (some m) b = some b := by
      simp [lastBlockStep, hmb]
    rw [hstep, ih b (List.pairwise_cons.mp hp).1 (List.pairwise_cons.mp hp).2,
        List.getLastD_cons]

theorem lastBlock_eq_getLast? (bs : List Block)
    (hp : List.Pairwise (fun a b => a.index < b.index) bs) :
    lastBlock bs = bs.getLast? := by
  cases bs with
  | nil => rfl
  | cons b rest =>
    show List.foldl lastBlockStep (lastBlockStep none b) rest = _
    rw [show lastBlockStep none b = some b from rfl,
        lastBlock_aux rest b (List.pairwise_cons.mp hp).1 (List.pairwise_cons.mp hp).2,
        List.getLast?_cons, List.getLastD_eq_getLast?]

theorem blocks_index_pairwise {bs : List Block}
    (h : bs.map (fun b => b.index) = List.range bs.length) :
    List.Pairwise (fun a b => a.index < b.index) bs := by
  have hr := List.pairwise_lt_range bs.length
  rw [← h] at hr
  exact List.pairwise_map.mp hr

/-! ### Helper lemmas: `markSealed` -/

theorem bidOk_ne_some {o : Option Nat} {N : Nat} (h : bidOk o N = true) :
    o ≠ some N := by
  cases o with
  | none => exact fun hc => Option.noConfusion hc
  | some b =>
    intro hc
    have hb : b < N := of_decide_eq_true h
    cases hc
    exact Nat.lt_irrefl _ hb

theorem markSealed_cons_of_ne (i : Nat) (ids : List Nat) (bid : Nat)
    (rows : List Statement) (h : ∀ s ∈ rows, s.id ≠ i) :
    markSealed (i :: ids) bid rows = markSealed ids bid rows := by
  induction rows with
  | nil => rfl
  | cons s rest ih =>
    have hs : s.id ≠ i := h s (List.mem_cons_self s rest)
    show (if s.id ∈ i :: ids then _ else s) :: markSealed (i :: ids) bid rest
        = (if s.id ∈ ids then _ else s) :: markSealed ids bid rest
    rw [ih (fun t ht => h t (List.mem_cons_of_mem s ht))]
    congr 1
    simp [List.mem_cons, hs]

theorem markSealed_filter_self {T rows : List Statement} {N : Nat}
    (hsub : T.Sublist rows)
    (hnd : (rows.map (fun s => s.id)).Nodup)
    (hT : ∀ t ∈ T, t.block_id = none)
    (hrows : ∀ s ∈ rows, bidOk s.block_id N = true) :
    (markSealed (T.map (fun s => s.id)) N rows).filter
        (fun s => s.block_id = some N)
      = T.map (fun t => { t with block_id := some N }) := by
  induction hsub with
  | slnil => rfl
  | @cons T l a hsub ih =>
    have hnd' := hnd
    rw [List.map_cons, List.nodup_cons] at hnd'
    have ha : a.id ∉ T.map (fun s => s.id) := by
      intro hmem
      rcases List.mem_map.mp hmem with ⟨t, htT, hid⟩
      exact hnd'.1 (hid ▸ List.mem_map_of_mem (fun s => s.id) (hsub.mem htT))
    have haN : a.block_id ≠ some N :=
      bidOk_ne_some (hrows a (List.mem_cons_self a l))
    show ((if a.id ∈ T.map (fun s => s.id) then _ else a)
        :: markSealed (T.map (fun s => s.id)) N l).filter _ = _
    rw [if_neg ha, List.filter_cons_of_neg (by simpa using haN)]
    exact ih hnd'.2 hT (fun s hs => hrows s (List.mem_cons_of_mem a hs))
  | @cons₂ T l a hsub ih =>
    have hnd' := hnd
    rw [List.map_cons, List.nodup_cons] at hnd'
    have hids : ∀ s ∈ l, s.id ≠ a.id := by
      intro s hs hc
      exact hnd'.1 (hc ▸ List.mem_map_of_mem (fun s => s.id) hs)
    show ((if a.id ∈ (a :: T).map (fun s => s.id) then
            { a with block_id := some N } else a)
        :: markSealed ((a :: T).map (fun s => s.id)) N l).filter _ = _
    rw [if_pos (by simp), List.map_cons, markSealed_cons_of_ne _ _ _ _ hids,
        List.filter_cons_of_pos (by simp)]
    rw [ih hnd'.2 (fun t ht => hT t (List.mem_cons_of_mem a ht))
        (fun s hs => hrows s (List.mem_cons_of_mem a hs))]
    rfl

theorem markSealed_filter_other (ids : List Nat) {N v : Nat} (hv : v ≠ N)
    (rows : List Statement)
    (h : ∀ s ∈ rows, s.id ∈ ids → s.block_id = none) :
    (markSealed ids N rows).filter (fun s => s.block_id = some v)
      = rows.filter (fun s => s.block_id = some v) := by
  induction rows with
  | nil => rfl
  | cons s rest ih =>
    have htail := ih (fun t ht => h t (List.mem_cons_of_mem s ht))
    show ((if s.id ∈ ids then { s with block_id := some N } else s)
        :: markSealed ids N rest).filter _ = _
    by_cases hid : s.id ∈ ids
    · have hb : s.block_id = none := h s (List.mem_cons_self s rest) hid
      rw [if_pos hid,
          List.filter_cons_of_neg (by simp [Ne.symm hv]),
          List.filter_cons_of_neg (by simp [hb]), htail]
    · rw [if_neg hid]
      by_cases hps : s.block_id = some v
      · rw [List.filter_cons_of_pos (by simpa using hps),
            List.filter_cons_of_pos (by simpa using hps), htail]
      · rw [List.filter_cons_of_neg (by simpa using hps),
            List.filter_cons_of_neg (by simpa using hps), htail]

/-! ### Invariant preservation -/

theorem inv_init : Inv initialState := by
  refine ⟨List.Pairwise.nil, ?_, rfl, List.chain'_nil, ?_, ?_, ?_, ?_⟩ <;>
    intro x hx <;> simp [initialState] at hx

theorem bidOk_mono {o : Option Nat} {N : Nat} (h : bidOk o N = true) :
    bidOk o (N + 1) = true := by
  cases o with
  | none => rfl
  | some b =>
    exact decide_eq_true (Nat.lt_trans (of_decide_eq_true h) (Nat.lt_succ_self N))

theorem inv_append (st : LedgerState) (kind : String) (payload : Json)
    (user_id : Option Nat) (now : String) (h : Inv st) :
    Inv (appendStatement st kind payload user_id now).2 := by
  obtain ⟨h1, h2, h3, h4, h5, h6, h7, h8⟩ := h
  simp only [appendStatement]
  refine ⟨?_, ?_, h3, h4, h5, h6, ?_, ?_⟩
  · rw [List.pairwise_append]
    refine ⟨h1, List.pairwise_singleton _ _, ?_⟩
    intro a ha b hb
    rw [List.mem_singleton] at hb
    subst hb
    exact h2 a ha
  · intro s hs
    rcases List.mem_append.mp hs with hs | hs
    · exact Nat.lt_trans (h2 s hs) (Nat.lt_succ_self _)
    · rw [List.mem_singleton] at hs
      subst hs
      exact Nat.lt_succ_self _
  · intro s hs
    rcases List.mem_append.mp hs with hs | hs
    · exact h7 s hs
    · rw [List.mem_singleton] at hs
      subst hs
      rfl
  · intro b hb
    rw [List.filter_append, List.filter_cons_of_neg (by simp),
        List.filter_nil, List.append_nil]
    exact h8 b hb

theorem nextIndex_eq_length (st : LedgerState)
    (h3 : st.blocks.map (fun b => b.index) = List.range st.blocks.length) :
    (getNextIndexAndPrevHash st).1 = st.blocks.length := by
  unfold getNextIndexAndPrevHash
  rw [lastBlock_eq_getLast? _ (blocks_index_pairwise h3)]
  cases hcons : st.blocks with
  | nil => rfl
  | cons c cs =>
    rw [hcons] at h3
    rw [List.getLast?_cons]
    show (cs.getLast?.getD c).index + 1 = (c :: cs).length
    have hlast : ((c :: cs).map (fun b => b.index)).getLast? = some cs.length := by
      rw [h3, show (c :: cs).length = cs.length + 1 from rfl, List.range_succ,
          List.getLast?_concat]
    rw [List.getLast?_map, List.getLast?_cons] at hlast
    have hidx : (cs.getLast?.getD c).index = cs.length := by
      simpa using hlast
    rw [hidx]
    rfl

theorem nextPrev_eq (st : LedgerState)
    (h3 : st.blocks.map (fun b => b.index) = List.range st.blocks.length) :
    (getNextIndexAndPrevHash st).2
      = st.blocks.getLast?.map (fun b => b.hash) := by
  unfold getNextIndexAndPrevHash
  rw [lastBlock_eq_getLast? _ (blocks_index_pairwise h3)]
  cases hb : st.blocks.getLast? <;> rfl

theorem calc_ignores_block_id (i : Nat) (p : Option String) (l : List Statement)
    (N : Nat) (t : String) :
    calcBlockHash i p (l.map (fun s => { s with block_id := some N })) t
      = calcBlockHash i p l t := by
  unfold calcBlockHash blockPayloadJson
  rw [List.map_map]
  rw [show statementJson ∘ (fun s => { s with block_id := some N })
      = statementJson from funext fun s => rfl]

theorem oldestUnsealed_sublist (st : LedgerState) (size : Nat)
    (h1 : List.Pairwise (fun a b => a.id < b.id) st.statements) :
    (oldestUnsealed st size).Sublist st.statements := by
  rw [oldestUnsealed_eq_take st size h1]
  exact (List.take_sublist _ _).trans (List.filter_sublist _)

theorem sel_id_block_none (st : LedgerState) (size : Nat)
    (h1 : List.Pairwise (fun a b => a.id < b.id) st.statements) :
    ∀ s ∈ st.statements,
      s.id ∈ (oldestUnsealed st size).map (fun s => s.id) → s.block_id = none := by
  intro s hs hmem
  rcases List.mem_map.mp hmem with ⟨t, htsel, hid⟩
  have hteq : s = t := stmt_id_inj h1 hs (mem_oldestUnsealed_mem htsel) hid.symm
  rw [hteq]
  exact mem_oldestUnsealed_block_id htsel

theorem sealedBlock_id (st : LedgerState) (size : Nat) (now : String) :
    (sealedBlock st size now).id = st.nextBlockId := rfl

theorem sealedBlock_index (st : LedgerState) (size : Nat) (now : String) :
    (sealedBlock st size now).index = (getNextIndexAndPrevHash st).1 := rfl

theorem sealedBlock_prev (st : LedgerState) (size : Nat) (now : String) :
    (sealedBlock st size now).prev_hash = (getNextIndexAndPrevHash st).2 := rfl

theorem sealedBlock_hash (st : LedgerState) (size : Nat) (now : String) :
    (sealedBlock st size now).hash
      = calcBlockHash (getNextIndexAndPrevHash st).1 (getNextIndexAndPrevHash st).2
          (oldestUnsealed st size) now := by
  simp only [sealedBlock]

theorem sealedBlock_created (st : LedgerState) (size : Nat) (now : String) :
    (sealedBlock st size now).created_at = now := rfl

theorem sealedState_statements (st : LedgerState) (size : Nat) (now : String) :
    (sealedState st size now).statements
      = markSealed ((oldestUnsealed st size).map (fun s => s.id))
          st.nextBlockId st.statements := rfl

theorem sealedState_blocks (st : LedgerState) (size : Nat) (now : String) :
    (sealedState st size now).blocks = st.blocks ++ [sealedBlock st size now] := rfl

theorem sealedState_nextStatementId (st : LedgerState) (size : Nat) (now : String) :
    (sealedState st size now).nextStatementId = st.nextStatementId := rfl

theorem sealedState_nextBlockId (st : LedgerState) (size : Nat) (now : String) :
    (sealedState st size now).nextBlockId = st.nextBlockId + 1 := rfl

theorem markSealed_map_form (ids : List Nat) (bid : Nat) (rows : List Statement) :
    markSealed ids bid rows
      = rows.map (fun s => if s.id ∈ ids then { s with block_id := some bid } else s) :=
  rfl

theorem inv_sealedState (st : LedgerState) (size : Nat) (now : String)
    (h : Inv st) : Inv (sealedState st size now) := by
  obtain ⟨h1, h2, h3, h4, h5, h6, h7, h8⟩ := h
  have hsub := oldestUnsealed_sublist st size h1
  have hnone : ∀ t ∈ oldestUnsealed st size, t.block_id = none :=
    fun t ht => mem_oldestUnsealed_block_id ht
  have hselid := sel_id_block_none st size h1
  have hidx := nextIndex_eq_length st h3
  have hprev := nextPrev_eq st h3
  have hgid : ∀ s : Statement,
      ((if s.id ∈ (oldestUnsealed st size).map (fun s => s.id)
        then { s with block_id := some st.nextBlockId } else s) : Statement).id
        = s.id := by
    intro s
    by_cases hc : s.id ∈ (oldestUnsealed st size).map (fun s => s.id) <;>
      simp [hc]
  refine ⟨?_, ?_, ?_, ?_, ?_, ?_, ?_, ?_⟩
  · rw [sealedState_statements, markSealed_map_form]
    exact List.pairwise_map.mpr
      (h1.imp fun {a b} hab => by rw [hgid a, hgid b]; exact hab)
  · rw [sealedState_statements, sealedState_nextStatementId, markSealed_map_form]
    intro s' hs'
    rcases List.mem_map.mp hs' with ⟨s, hs, hgs⟩
    rw [← hgs, hgid s]
    exact h2 s hs
  · rw [sealedState_blocks, List.map_append, h3, List.map_singleton,
        sealedBlock_index, hidx, List.length_append, List.length_singleton,
        List.range_succ]
  · rw [sealedState_blocks, List.chain'_append]
    refine ⟨h4, List.chain'_singleton _, ?_⟩
    intro x hx y hy
    have hxl : st.blocks.getLast? = some x := Option.mem_def.mp hx
    have hyb : y = sealedBlock st size now := by
      rw [List.head?_cons] at hy
      exact (Option.some_injective _ (Option.mem_def.mp hy)).symm
    subst hyb
    rw [sealedBlock_prev, hprev, hxl]
    rfl
  · rw [sealedState_blocks]
    intro bb hbb
    cases hcons : st.blocks with
    | nil =>
      rw [hcons] at hbb
      have hbbe : bb = sealedBlock st size now := by
        simpa using hbb
      subst hbbe
      rw [sealedBlock_prev, hprev, hcons]
      rfl
    | cons c cs =>
      rw [hcons] at hbb h5
      have hbbe : bb = c := by
        simpa using hbb
      subst hbbe
      exact h5 bb (List.mem_cons_self _ _)
  · rw [sealedState_blocks, sealedState_nextBlockId]
    intro x hx
    rcases List.mem_append.mp hx with hx | hx
    · exact Nat.lt_trans (h6 x hx) (Nat.lt_succ_self _)
    · rw [List.mem_singleton] at hx
      subst hx
      rw [sealedBlock_id]
      exact Nat.lt_succ_self _
  · rw [sealedState_statements, sealedState_nextBlockId, markSealed_map_form]
    intro s' hs'
    rcases List.mem_map.mp hs' with ⟨s, hs, hgs⟩
    rw [← hgs]
    by_cases hc : s.id ∈ (oldestUnsealed st size).map (fun s => s.id)
    · rw [if_pos hc]
      exact decide_eq_true (Nat.lt_succ_self _)
    · rw [if_neg hc]
      exact bidOk_mono (h7 s hs)
  · rw [sealedState_blocks, sealedState_statements]
    intro x hx
    rcases List.mem_append.mp hx with hx | hx
    · rw [markSealed_filter_other _ (Nat.ne_of_lt (h6 x hx)) _ hselid]
      exact h8 x hx
    · rw [List.mem_singleton] at hx
      subst hx
      rw [sealedBlock_id, sealedBlock_hash, sealedBlock_index, sealedBlock_prev,
          sealedBlock_created, markSealed_filter_self hsub (ids_nodup h1) hnone h7,
          calc_ignores_block_id]

theorem inv_seal (cfgBlockSize : Nat) (limit : Option Nat) (now : String)
    (st : LedgerState) (h : Inv st) :
    Inv (maybeSealBlock cfgBlockSize limit now st).2 := by
  simp only [maybeSealBlock]
  split
  · exact h
  · exact inv_sealedState st (resolveSize cfgBlockSize limit) now h

theorem step_inv {st st' : LedgerState} (h : Inv st) (hs : Step st st') :
    Inv st' := by
  cases hs with
  | record kind payload user_id now => exact inv_append st kind payload user_id now h
  | recordFail kind payload user_id now => exact h
  | sealCall cfg limit now => exact inv_seal cfg limit now st h

theorem inv_of_reachable {st : LedgerState} (h : Reachable st) : Inv st := by
  induction h with
  | refl => exact inv_init
  | tail _ hstep ih => exact step_inv ih hstep

theorem step_nextStatementId_mono {st st' : LedgerState} (hs : Step st st') :
    st.nextStatementId ≤ st'.nextStatementId := by
  cases hs with
  | record kind payload user_id now => exact Nat.le_succ _
  | recordFail kind payload user_id now => exact Nat.le_refl _
  | sealCall cfg limit now =>
    simp only [maybeSealBlock]
    split
    · exact Nat.le_refl _
    · exact Nat.le_refl _

theorem steps_nextStatementId_mono {st st' : LedgerState} (hs : Steps st st') :
    st.nextStatementId ≤ st'.nextStatementId := by
  induction hs with
  | refl => exact Nat.le_refl _
  | tail _ hstep ih => exact Nat.le_trans ih (step_nextStatementId_mono hstep)

/-! ### Claim theorems -/

/-- C10: `_calc_block_hash` coerces a NULL `prev_hash` to the empty string
(`prev_hash or ""`), so hashing with `prev_hash = None` and with
`prev_hash = ""` agree on every index, statement list and timestamp: the two
are indistinguishable to the hashing scheme. -/
theorem calc_hash_null_prev (index : Nat) (statements : List Statement)
    (created_at : String) :
    calcBlockHash index none statements created_at
      = calcBlockHash index (some "") statements created_at := by
  unfold calcBlockHash blockPayloadJson
  rw [show prevHashOrEmpty none = prevHashOrEmpty (some "") from rfl]

/-- C3: when fewer statements with `block_id = NULL` exist than the resolved
batch size, `maybe_seal_block` returns `None` ("no block sealed") and the
whole stored state — statements, blocks and both keys — is returned
unchanged. -/
theorem seal_below_threshold_noop (cfgBlockSize : Nat) (limit : Option Nat)
    (now : String) (st : LedgerState)
    (h : countUnsealed st < resolveSize cfgBlockSize limit) :
    maybeSealBlock cfgBlockSize limit now st = (none, st) := by
  have hlen : (oldestUnsealed st (resolveSize cfgBlockSize limit)).length
      = countUnsealed st := by
    unfold oldestUnsealed countUnsealed
    rw [List.length_take, length_sortByIdAsc]
    exact Nat.min_eq_right (Nat.le_of_lt h)
  simp only [maybeSealBlock]
  rw [if_pos (hlen ▸ h)]

/-- C3 witness: with one unsealed statement and the default batch size 10,
sealing is a no-op on the stored state. -/
theorem seal_below_threshold_noop_witness :
    countUnsealed (appendStatement initialState "login" Json.null (some 7) "t0").2
        < resolveSize 10 none ∧
    maybeSealBlock 10 none "t1" (appendStatement initialState "login" Json.null (some 7) "t0").2
      = (none, (appendStatement initialState "login" Json.null (some 7) "t0").2) :=
  ⟨by decide, seal_below_threshold_noop 10 none "t1" _ (by decide)⟩

/-- C5 counterexample: the marking step of the source (lines 76–77) has no
`AlreadySealed` check at all — applied to a statement whose `block_id` is
already `some 5`, it silently overwrites the assignment with the new block
key instead of failing. -/
theorem mark_sealed_overwrites :
    ({ id := 1, kind := "k", user_id := none, payload := Json.null,
       created_at := "t", block_id := some 5 } : Statement).block_id = some 5 ∧
    markSealed [1] 9
        [{ id := 1, kind := "k", user_id := none, payload := Json.null,
           created_at := "t", block_id := some 5 }]
      = [{ id := 1, kind := "k", user_id := none, payload := Json.null,
           created_at := "t", block_id := some 9 }] :=
  ⟨rfl, rfl⟩

/-- C5 (amended): the marking step sets `block_id` unconditionally and never
raises `AlreadySealed`; however, every statement targeted by the sealing
step is drawn from the `block_id IS NULL` query, so at selection time each
target has `block_id = NULL` and no existing block assignment is
overwritten by a sealing attempt. -/
theorem seal_targets_unsealed_only (st : LedgerState) (size : Nat)
    (s : Statement) (h : s ∈ oldestUnsealed st size) : s.block_id = none :=
  mem_oldestUnsealed_block_id h

/-- C5 witness: the single statement targeted by a size-1 seal of a
one-statement ledger is unsealed. -/
theorem seal_targets_unsealed_only_witness :
    (appendStatement initialState "login" Json.null (some 7) "t0").1
        ∈ oldestUnsealed (appendStatement initialState "login" Json.null (some 7) "t0").2 1 ∧
    (appendStatement initialState "login" Json.null (some 7) "t0").1.block_id = none :=
  ⟨List.Mem.head _,
   seal_targets_unsealed_only
     (appendStatement initialState "login" Json.null (some 7) "t0").2 1
     (appendStatement initialState "login" Json.null (some 7) "t0").1
     (List.Mem.head _)⟩

/-- C7 counterexample: when `append_statement` raises inside the
`log_http_request` hook, the `except Exception: pass` handler emits no
diagnostic trace whatsoever — the failure is silently discarded,
contradicting the claim that at least a log entry is emitted. -/
theorem http_hook_failure_unlogged :
    (logHttpRequest false (some .inRecord) 10 Json.null none "t" initialState).diagnostics
        = [] ∧
    (logHttpRequest false (some .inRecord) 10 Json.null none "t" initialState).proceeds
        = true :=
  ⟨rfl, rfl⟩

/-- C7 (amended): failures of `append_statement`/`maybe_seal_block` inside
the per-request audit hook never propagate — the request always proceeds —
but they are silently discarded: the `except Exception: pass` handler emits
no diagnostic trace at all. -/
theorem http_hook_nonpropagating_silent (skipped : Bool)
    (failure : Option AuditFailure) (cfgBlockSize : Nat) (payload : Json)
    (user_id : Option Nat) (now : String) (st : LedgerState) :
    (logHttpRequest skipped failure cfgBlockSize payload user_id now st).proceeds
        = true ∧
    (logHttpRequest skipped failure cfgBlockSize payload user_id now st).diagnostics
        = [] := by
  cases skipped with
  | true => exact ⟨rfl, rfl⟩
  | false =>
    cases failure with
    | none => exact ⟨rfl, rfl⟩
    | some f => cases f <;> exact ⟨rfl, rfl⟩

/-- C9: statement ids are strictly increasing in commit order — a statement
recorded by `append_statement`, after any number of further committed
ledger interactions, is followed by statements with strictly greater ids —
and a failed record attempt rolls back, allocating no id and leaving the
store unchanged. -/
theorem record_ids_monotonic (st st1 st2 st3 : LedgerState)
    (s1 s2 : Statement) (k1 k2 : String) (p1 p2 : Json)
    (u1 u2 : Option Nat) (t1 t2 : String)
    (h1 : appendStatement st k1 p1 u1 t1 = (s1, st1))
    (h2 : Steps st1 st2)
    (h3 : appendStatement st2 k2 p2 u2 t2 = (s2, st3)) :
    s1.id < s2.id ∧ recordAttempt false st k1 p1 u1 t1 = (none, st) := by
  constructor
  · have e1 : st.nextStatementId = s1.id := congrArg (fun r => r.1.id) h1
    have e2 : st.nextStatementId + 1 = st1.nextStatementId :=
      congrArg (fun r => r.2.nextStatementId) h1
    have e3 : st2.nextStatementId = s2.id := congrArg (fun r => r.1.id) h3
    have e4 : st1.nextStatementId ≤ st2.nextStatementId :=
      steps_nextStatementId_mono h2
    rw [← e1, ← e3]
    exact Nat.lt_of_lt_of_le (e2 ▸ Nat.lt_succ_self _) e4
  · rfl

/-- C9 witness: two consecutive records from the empty store get ids 1 and
2, and a failed record attempt is an exact no-op. -/
theorem record_ids_monotonic_witness :
    (appendStatement initialState "a" Json.null none "t0").1.id
        < (appendStatement (appendStatement initialState "a" Json.null none "t0").2
            "b" Json.null none "t1").1.id ∧
    recordAttempt false initialState "a" Json.null none "t0"
      = (none, initialState) :=
  record_ids_monotonic initialState _ _ _ _ _ "a" "b" Json.null Json.null
    none none "t0" "t1" rfl Relation.ReflTransGen.refl rfl

/-! ### A small concrete run used by the witnesses -/

/-- One `login` statement recorded on the empty store. -/
def wStatePre : LedgerState :=
  (appendStatement initialState "login"
    (Json.obj [("remember", Json.bool true)]) (some 7) "t0").2

/-- The store after sealing that statement into a size-1 block. -/
def wStateSealed : LedgerState := (maybeSealBlock 1 none "t1" wStatePre).2

/-- The genesis block of that run. -/
def wBlock : Block := sealedBlock wStatePre 1 "t1"

theorem wStatePre_reachable : Reachable wStatePre :=
  Relation.ReflTransGen.single
    (Step.record initialState "login"
      (Json.obj [("remember", Json.bool true)]) (some 7) "t0")

theorem wStateSealed_reachable : Reachable wStateSealed :=
  Relation.ReflTransGen.tail wStatePre_reachable
    (Step.sealCall wStatePre 1 none "t1")

/-- Splitting a successful seal into its parts: the threshold test did not
fire, the returned block is `sealedBlock`, the new state `sealedState`. -/
theorem maybeSealBlock_some {cfgBlockSize : Nat} {limit : Option Nat}
    {now : String} {st : LedgerState} {b : Block} {st' : LedgerState}
    (hm : maybeSealBlock cfgBlockSize limit now st = (some b, st')) :
    ¬ ((oldestUnsealed st (resolveSize cfgBlockSize limit)).length
        < resolveSize cfgBlockSize limit) ∧
    b = sealedBlock st (resolveSize cfgBlockSize limit) now ∧
    st' = sealedState st (resolveSize cfgBlockSize limit) now := by
  simp only [maybeSealBlock] at hm
  split at hm
  case isTrue hcond => exact absurd (congrArg Prod.fst hm) (by simp)
  case isFalse hcond =>
    exact ⟨hcond, (Option.some_injective _ (congrArg Prod.fst hm)).symm,
           (congrArg Prod.snd hm).symm⟩

theorem blockStmts_eq_filter (st : LedgerState) (bid : Nat)
    (h1 : List.Pairwise (fun a b => a.id < b.id) st.statements) :
    blockStmts st bid
      = st.statements.filter (fun s => s.block_id = some bid) := by
  unfold blockStmts
  exact sortByIdAsc_eq_self _ (h1.sublist (List.filter_sublist _))

/-- C1: in every reachable state, every stored block's `hash` equals the
lowercase-hex SHA-256 digest of the canonical JSON serialization (sorted
keys, `(",", ":")` separators, UTF-8) of `{index, prev_hash, created_at,
statements}`, where the statements are the block's own sealed statements'
`(id, kind, user_id, created_at, payload)` fields in ascending `id` order —
recomputing `_calc_block_hash` from the stored fields reproduces the stored
hash bit-for-bit. -/
theorem block_hash_canonical (st : LedgerState) (h : Reachable st) :
    ∀ b ∈ st.blocks,
      b.hash = calcBlockHash b.index b.prev_hash (blockStmts st b.id) b.created_at ∧
      b.hash = sha256Hex (dumps (blockPayloadJson b.index b.prev_hash
          (blockStmts st b.id) b.created_at)) := by
  obtain ⟨h1, _, _, _, _, _, _, h8⟩ := inv_of_reachable h
  intro b hb
  rw [blockStmts_eq_filter st b.id h1]
  exact ⟨h8 b hb, h8 b hb⟩

/-- C1 witness: the genesis block of the one-statement run. -/
theorem block_hash_canonical_witness :
    wBlock.hash = calcBlockHash wBlock.index wBlock.prev_hash
        (blockStmts wStateSealed wBlock.id) wBlock.created_at ∧
    wBlock.hash = sha256Hex (dumps (blockPayloadJson wBlock.index
        wBlock.prev_hash (blockStmts wStateSealed wBlock.id) wBlock.created_at)) :=
  block_hash_canonical wStateSealed wStateSealed_reachable wBlock
    (List.Mem.head _)

/-- C2: in every reachable state the stored block `index`es are exactly
`0, …, N-1` in insertion order (no gaps, no repeats, so the block at
`index - 1` is unique), every later block's `prev_hash` is the previous
block's `hash`, the genesis block's `prev_hash` is NULL; and a successful
seal places the new block at `index = 0` with NULL `prev_hash` when no
block exists, else at the last block's `index + 1` carrying its `hash`. -/
theorem chain_linkage_gapless (st : LedgerState) (h : Reachable st) :
    st.blocks.map (fun b => b.index) = List.range st.blocks.length ∧
    List.Chain' (fun a b => b.prev_hash = some a.hash) st.blocks ∧
    (∀ b ∈ st.blocks.take 1, b.prev_hash = none) ∧
    ∀ (cfgBlockSize : Nat) (limit : Option Nat) (now : String) (b : Block)
      (st' : LedgerState),
      maybeSealBlock cfgBlockSize limit now st = (some b, st') →
      (st.blocks = [] → b.index = 0 ∧ b.prev_hash = none) ∧
      (∀ last, st.blocks.getLast? = some last →
        b.index = last.index + 1 ∧ b.prev_hash = some last.hash) := by
  obtain ⟨h1, h2, h3, h4, h5, h6, h7, h8⟩ := inv_of_reachable h
  refine ⟨h3, h4, h5, ?_⟩
  intro cfgBlockSize limit now b st' hm
  obtain ⟨_, hb, _⟩ := maybeSealBlock_some hm
  subst hb
  constructor
  · intro hnil
    have hlb : lastBlock st.blocks = none := by rw [hnil]; rfl
    rw [sealedBlock_index, sealedBlock_prev]
    unfold getNextIndexAndPrevHash
    rw [hlb]
    exact ⟨rfl, rfl⟩
  · intro last hlast
    have hlb : lastBlock st.blocks = some last := by
      rw [lastBlock_eq_getLast? _ (blocks_index_pairwise h3), hlast]
    rw [sealedBlock_index, sealedBlock_prev]
    unfold getNextIndexAndPrevHash
    rw [hlb]
    exact ⟨rfl, rfl⟩

/-- C2 witness: sealing the one-statement store creates the genesis block:
`index = 0`, `prev_hash = NULL`; and the empty block table trivially has
gapless indices. -/
theorem chain_linkage_gapless_witness :
    wStatePre.blocks.map (fun b => b.index) = List.range wStatePre.blocks.length ∧
    wBlock.index = 0 ∧ wBlock.prev_hash = none :=
  ⟨(chain_linkage_gapless wStatePre wStatePre_reachable).1,
   ((chain_linkage_gapless wStatePre wStatePre_reachable).2.2.2 1 none "t1"
       wBlock (maybeSealBlock 1 none "t1" wStatePre).2 rfl).1 rfl⟩

/-- C4: a successful seal marks exactly the `batch_size` (resolved size)
oldest unsealed statements: the statements carrying the new block's id in
the committed state are precisely the selected batch — never fewer, never
more — the batch is in ascending `id` order, and every unsealed statement
left out has a strictly greater `id` than every sealed one. -/
theorem sealed_batch_exact (st : LedgerState) (cfgBlockSize : Nat)
    (limit : Option Nat) (now : String) (b : Block) (st' : LedgerState)
    (hre : Reachable st)
    (hm : maybeSealBlock cfgBlockSize limit now st = (some b, st')) :
    st'.statements.filter (fun s => s.block_id = some b.id)
        = (oldestUnsealed st (resolveSize cfgBlockSize limit)).map
            (fun s => { s with block_id := some b.id }) ∧
    (st'.statements.filter (fun s => s.block_id = some b.id)).length
        = resolveSize cfgBlockSize limit ∧
    List.Pairwise (fun a b => a.id < b.id)
      (oldestUnsealed st (resolveSize cfgBlockSize limit)) ∧
    ∀ s ∈ oldestUnsealed st (resolveSize cfgBlockSize limit),
      ∀ t ∈ st.statements, t.block_id = none →
        t.id ∉ (oldestUnsealed st (resolveSize cfgBlockSize limit)).map
            (fun s => s.id) →
        s.id < t.id := by
  obtain ⟨h1, h2, h3, h4, h5, h6, h7, h8⟩ := inv_of_reachable hre
  obtain ⟨hcond, hb, hst'⟩ := maybeSealBlock_some hm
  subst hb
  subst hst'
  have hsub := oldestUnsealed_sublist st (resolveSize cfgBlockSize limit) h1
  have hnone : ∀ t ∈ oldestUnsealed st (resolveSize cfgBlockSize limit),
      t.block_id = none := fun t ht => mem_oldestUnsealed_block_id ht
  have hfilter :
      (sealedState st (resolveSize cfgBlockSize limit) now).statements.filter
        (fun s => s.block_id
          = some (sealedBlock st (resolveSize cfgBlockSize limit) now).id)
      = (oldestUnsealed st (resolveSize cfgBlockSize limit)).map
          (fun s =>
            { s with block_id := some (sealedBlock st (resolveSize cfgBlockSize limit) now).id }) := by
    rw [sealedBlock_id, sealedState_statements]
    exact markSealed_filter_self hsub (ids_nodup h1) hnone h7
  refine ⟨hfilter, ?_, h1.sublist hsub, ?_⟩
  · rw [hfilter, List.length_map]
    have hle : (oldestUnsealed st (resolveSize cfgBlockSize limit)).length
        ≤ resolveSize cfgBlockSize limit := by
      unfold oldestUnsealed
      rw [List.length_take]
      exact Nat.min_le_left _ _
    exact Nat.le_antisymm hle (Nat.le_of_not_lt hcond)
  · intro s hs t ht htnone htid
    rw [oldestUnsealed_eq_take st _ h1] at hs htid
    have hpF : List.Pairwise (fun a b => a.id < b.id)
        (st.statements.filter (fun s => s.block_id = none)) :=
      h1.sublist (List.filter_sublist _)
    have htF : t ∈ st.statements.filter (fun s => s.block_id = none) :=
      List.mem_filter.mpr ⟨ht, by simp [htnone]⟩
    have hsplit := List.take_append_drop (resolveSize cfgBlockSize limit)
      (st.statements.filter (fun s => s.block_id = none))
    rw [← hsplit] at htF hpF
    rcases List.mem_append.mp htF with htk | htd
    · exact absurd (List.mem_map_of_mem (fun s => s.id) htk) htid
    · exact (List.pairwise_append.mp hpF).2.2 s hs t htd

/-- C4 witness: the size-1 seal of the one-statement store marks exactly
that one statement. -/
theorem sealed_batch_exact_witness :
    wStateSealed.statements.filter (fun s => s.block_id = some wBlock.id)
        = (oldestUnsealed wStatePre (resolveSize 1 none)).map
            (fun s => { s with block_id := some wBlock.id }) ∧
    (wStateSealed.statements.filter
        (fun s => s.block_id = some wBlock.id)).length = resolveSize 1 none :=
  ⟨(sealed_batch_exact wStatePre 1 none "t1" wBlock wStateSealed
      wStatePre_reachable rfl).1,
   (sealed_batch_exact wStatePre 1 none "t1" wBlock wStateSealed
      wStatePre_reachable rfl).2.1⟩

/-- C8: `maybe_seal_block` mutates only `block_id` of the selected batch:
the statement table keeps its length; every statement keeps its
`(id, kind, user_id, payload, created_at)` tuple; a `block_id` already set
is never changed; a NULL `block_id` either stays NULL or becomes the new
block's id; statements outside the selected batch are entirely unchanged;
and a failed threshold check changes nothing at all. -/
theorem seal_frame (st : LedgerState) (cfgBlockSize : Nat)
    (limit : Option Nat) (now : String) (r : Option Block)
    (st' : LedgerState) (hre : Reachable st)
    (hm : maybeSealBlock cfgBlockSize limit now st = (r, st')) :
    st'.statements.length = st.statements.length ∧
    (r = none → st' = st) ∧
    ∀ (i : Nat) (hi : i < st.statements.length)
      (hi' : i < st'.statements.length),
      ((st'.statements.get ⟨i, hi'⟩).id = (st.statements.get ⟨i, hi⟩).id ∧
       (st'.statements.get ⟨i, hi'⟩).kind = (st.statements.get ⟨i, hi⟩).kind ∧
       (st'.statements.get ⟨i, hi'⟩).user_id
          = (st.statements.get ⟨i, hi⟩).user_id ∧
       (st'.statements.get ⟨i, hi'⟩).payload
          = (st.statements.get ⟨i, hi⟩).payload ∧
       (st'.statements.get ⟨i, hi'⟩).created_at
          = (st.statements.get ⟨i, hi⟩).created_at) ∧
      (∀ bid, (st.statements.get ⟨i, hi⟩).block_id = some bid →
        (st'.statements.get ⟨i, hi'⟩).block_id = some bid) ∧
      ((st.statements.get ⟨i, hi⟩).block_id = none →
        (st'.statements.get ⟨i, hi'⟩).block_id = none ∨
        ∃ bb, r = some bb ∧
          (st'.statements.get ⟨i, hi'⟩).block_id = some bb.id) ∧
      (∀ bb, r = some bb →
        (st.statements.get ⟨i, hi⟩).id
            ∉ (oldestUnsealed st (resolveSize cfgBlockSize limit)).map
                (fun s => s.id) →
        st'.statements.get ⟨i, hi'⟩ = st.statements.get ⟨i, hi⟩) := by
  obtain ⟨h1, _, _, _, _, _, h7, _⟩ := inv_of_reachable hre
  have hselid := sel_id_block_none st (resolveSize cfgBlockSize limit) h1
  simp only [maybeSealBlock] at hm
  split at hm
  case isTrue hcond =>
    have hr : r = none := (congrArg Prod.fst hm).symm
    have hst : st' = st := (congrArg Prod.snd hm).symm
    subst hr
    subst hst
    refine ⟨rfl, fun _ => rfl, ?_⟩
    intro i hi hi'
    exact ⟨⟨rfl, rfl, rfl, rfl, rfl⟩, fun bid hb => hb, fun hn => Or.inl hn,
           fun bb hbb => Option.noConfusion hbb⟩
  case isFalse hcond =>
    have hr : r = some (sealedBlock st (resolveSize cfgBlockSize limit) now) :=
      (congrArg Prod.fst hm).symm
    have hst : st' = sealedState st (resolveSize cfgBlockSize limit) now :=
      (congrArg Prod.snd hm).symm
    subst hr
    subst hst
    refine ⟨?_, fun hn => Option.noConfusion hn, ?_⟩
    · rw [sealedState_statements, markSealed_map_form]
      exact List.length_map _ _
    · intro i hi hi'
      have hget : (sealedState st (resolveSize cfgBlockSize limit) now).statements.get
            ⟨i, hi'⟩
          = if (st.statements.get ⟨i, hi⟩).id
                ∈ (oldestUnsealed st (resolveSize cfgBlockSize limit)).map
                    (fun s => s.id)
            then { st.statements.get ⟨i, hi⟩ with block_id := some st.nextBlockId }
            else st.statements.get ⟨i, hi⟩ := by
        show (List.map _ st.statements).get ⟨i, _⟩ = _
        rw [List.get_map]
        rfl
      rw [hget]
      by_cases hc : (st.statements.get ⟨i, hi⟩).id
          ∈ (oldestUnsealed st (resolveSize cfgBlockSize limit)).map (fun s => s.id)
      · rw [if_pos hc]
        refine ⟨⟨rfl, rfl, rfl, rfl, rfl⟩, ?_, ?_, ?_⟩
        · intro bid hbid
          have hn := hselid _ (List.get_mem st.statements i hi) hc
          rw [hbid] at hn
          exact Option.noConfusion hn
        · intro _
          exact Or.inr ⟨sealedBlock st (resolveSize cfgBlockSize limit) now,
            rfl, rfl⟩
        · intro bb _ hnotin
          exact absurd hc hnotin
      · rw [if_neg hc]
        exact ⟨⟨rfl, rfl, rfl, rfl, rfl⟩, fun bid hb => hb, fun hn => Or.inl hn,
               fun bb _ _ => rfl⟩

/-- C8 witness: the size-1 seal preserves the statement-table length, and
the sealed statement's core fields are unchanged. -/
theorem seal_frame_witness :
    wStateSealed.statements.length = wStatePre.statements.length :=
  (seal_frame wStatePre 1 none "t1" (some wBlock) wStateSealed
    wStatePre_reachable rfl).1

/-! ### C6: the spec-modelled `verify_chain` -/

theorem insertByIndexAsc_cons_of_le (b c : Block) (rest : List Block)
    (h : b.index ≤ c.index) : insertByIndexAsc b (c :: rest) = b :: c :: rest := by
  simp [insertByIndexAsc, h]

theorem sortByIndexAsc_eq_self (l : List Block)
    (h : List.Pairwise (fun a b => a.index < b.index) l) :
    sortByIndexAsc l = l := by
  induction l with
  | nil => rfl
  | cons b xs ih =>
    rcases List.pairwise_cons.mp h with ⟨hhead, htail⟩
    show insertByIndexAsc b (sortByIndexAsc xs) = b :: xs
    rw [ih htail]
    cases xs with
    | nil => rfl
    | cons c rest =>
      exact insertByIndexAsc_cons_of_le b c rest
        (Nat.le_of_lt (hhead c (List.mem_cons_self c rest)))

theorem verifyFrom_none (st : LedgerState) (bs : List Block)
    (hlink : List.Chain' (fun a b => b.prev_hash = some a.hash) bs)
    (hhash : ∀ b ∈ bs, b.hash = calcBlockHash b.index b.prev_hash
        (blockStmts st b.id) b.created_at) :
    ∀ prev, (∀ b ∈ bs.take 1, b.prev_hash = prev) →
      verifyFrom st prev bs = none := by
  induction bs with
  | nil => intro prev _; rfl
  | cons b rest ih =>
    intro prev hfirst
    have hb1 : b.prev_hash = prev := hfirst b (by simp)
    have hb2 := hhash b (List.mem_cons_self b rest)
    show (if _ ∧ _ then verifyFrom st (some b.hash) rest else some b.index) = none
    rw [if_pos ⟨hb1, hb2⟩]
    refine ih hlink.tail
      (fun c hc => hhash c (List.mem_cons_of_mem b hc)) (some b.hash) ?_
    intro c hc
    cases rest with
    | nil => simp at hc
    | cons c' cs =>
      have hce : c = c' := by simpa using hc
      subst hce
      exact (List.chain'_cons.mp hlink).1

/-- C6: the ledger's read-only `verify_chain` (modelled from the spec, §4.3)
recomputes every block's hash from the stored statements, checks every
`prev_hash` link, and — being a pure function of the state returning only a
verdict — mutates nothing; on every reachable (uncorrupted) state it
reports success. -/
theorem verify_chain_of_reachable (st : LedgerState) (h : Reachable st) :
    verifyChain st = none := by
  obtain ⟨h1, _, h3, h4, h5, _, _, h8⟩ := inv_of_reachable h
  unfold verifyChain
  rw [sortByIndexAsc_eq_self _ (blocks_index_pairwise h3)]
  refine verifyFrom_none st st.blocks h4 ?_ none h5
  intro b hb
  rw [blockStmts_eq_filter st b.id h1]
  exact h8 b hb

/-- C6 witness: the one-block ledger verifies end to end. -/
theorem verify_chain_of_reachable_witness : verifyChain wStateSealed = none :=
  verify_chain_of_reachable wStateSealed wStateSealed_reachable

end AuditLedger
